import Mathlib

/-!
Verification of the libwebp core specification against a shallow embedding of
the two cores: the VP8 lossy frame-reconstruction pipeline (src/dec/frame_dec.c
and its header) and the VP8L lossless histogram clustering (histogram_enc.c).

Machine integers are modelled as `Nat` / `Int`, with explicit `% 2^w` where the
C code relies on fixed-width behaviour.  Code whose definition is not part of
the provided sources (dsp entropy kernels, small shared utilities) is modelled
from the specification; each such definition carries a doc comment starting
with `Modelled from the spec:`.
-/

namespace WebP

/-- Modelled from the spec: `VP8L_NON_TRIVIAL_SYM` is the reserved sentinel
`(uint32_t)(-1)` for a histogram with no single trivial symbol. -/
def NON_TRIVIAL_SYM : ℕ := 2 ^ 32 - 1

/-- `WEBP_INT64_MAX`, the saturation bound used by `SaturateAdd`. -/
def INT64_MAX : ℤ := 2 ^ 63 - 1

/-- Modelled from the spec: `DivRound(a, b)` from the shared utility header
(not part of the source slice).  Section 4.5 of the spec describes the
expressions built from it as `round(...)`; for the non-negative operands used
throughout the histogram code this is division with rounding half up. -/
def divRound (a b : ℕ) : ℕ := (a + b / 2) / b

/-- Interpretation of a `uint64_t` value as `int64_t` (two's complement cast),
as performed by the C casts `(int64_t)a` in the histogram cost code. -/
def int64OfUInt64 (a : ℕ) : ℤ :=
  if a % 2 ^ 64 < 2 ^ 63 then (a % 2 ^ 64 : ℤ) else (a % 2 ^ 64 : ℤ) - 2 ^ 64

/-- `SaturateAdd` (histogram_enc.c): set `a + b` in `b`, saturating at
`WEBP_INT64_MAX`. -/
def SaturateAdd (a : ℕ) (b : ℤ) : ℤ :=
  if b < 0 ∨ int64OfUInt64 a ≤ INT64_MAX - b then b + int64OfUInt64 a
  else INT64_MAX

/-- `MAX_HISTO_GREEDY` (histogram_enc.c). -/
def MAX_HISTO_GREEDY : ℕ := 100

/-- The `threshold_size` computed in `VP8LGetHistoImageSymbols`: the cubic ramp
`1 + DivRound(quality^3 * (MAX_HISTO_GREEDY - 1), 100^3)` under which the
greedy clusterer is invoked. -/
def thresholdSize (quality : ℕ) : ℕ :=
  1 + divRound (quality * quality * quality * (MAX_HISTO_GREEDY - 1))
        (100 * 100 * 100)

/-- The value asserted by claim C5, which uses a floor instead of the code's
rounding division: `1 + floor(quality^3 * 99 / 10^6)`. -/
def thresholdSizeClaimC5 (quality : ℕ) : ℕ :=
  1 + quality * quality * quality * 99 / 1000000

/-- C5 counterexample: at `quality = 80` the code computes
`1 + DivRound(50688000, 10^6) = 52` while the claim's floor formula yields
`1 + 50 = 51`. -/
theorem C5_counterexample :
    thresholdSize 80 = 52 ∧ thresholdSizeClaimC5 80 = 51 ∧
    thresholdSize 80 ≠ thresholdSizeClaimC5 80 := by
  refine ⟨by decide, by decide, by decide⟩

/-- C5 amended: for every quality in [0,100] the greedy-ramp threshold equals
`1 + (quality^3 * 99 + 500000) / 10^6` (division rounding half up, i.e. the
code's `DivRound`), and it never exceeds `MAX_HISTO_GREEDY = 100`. -/
theorem C5_threshold_size (quality : ℕ) (h : quality ≤ 100) :
    thresholdSize quality = 1 + (quality ^ 3 * 99 + 500000) / 1000000 ∧
    thresholdSize quality ≤ 100 := by
  have h' : quality < 101 := Nat.lt_succ_of_le h
  revert h'
  revert quality
  decide

/-- C5 witness: the amended theorem evaluated at quality 80. -/
theorem C5_threshold_size_witness :
    thresholdSize 80 = 1 + (80 ^ 3 * 99 + 500000) / 1000000 ∧
    thresholdSize 80 ≤ 100 :=
  C5_threshold_size 80 (by decide)

/-! ### Intra-prediction mode adjustment (frame_dec.c, `CheckMode`) -/

/-- Modelled from the spec: the DC prediction-mode codes of the dsp dispatch
header (not part of the source slice); `B_DC_PRED` is mode 0 and the three
boundary variants follow the luma16/chroma dispatch enum. -/
def B_DC_PRED : ℕ := 0

/-- Modelled from the spec: DC-prediction variant used when the top row is
missing. -/
def B_DC_PRED_NOTOP : ℕ := 4

/-- Modelled from the spec: DC-prediction variant used when the left column is
missing. -/
def B_DC_PRED_NOLEFT : ℕ := 5

/-- Modelled from the spec: DC-prediction variant used when both the top row
and the left column are missing. -/
def B_DC_PRED_NOTOPLEFT : ℕ := 6

/-- `CheckMode` (frame_dec.c): specialize the DC prediction mode according to
the existence of the top row and left column; other modes pass unchanged. -/
def CheckMode (mb_x mb_y mode : ℕ) : ℕ :=
  if mode = B_DC_PRED then
    if mb_x = 0 then
      if mb_y = 0 then B_DC_PRED_NOTOPLEFT else B_DC_PRED_NOLEFT
    else
      if mb_y = 0 then B_DC_PRED_NOTOP else B_DC_PRED
  else mode

/-- C6: the mode-adjustment function returns every non-DC mode unchanged; for
DC prediction it returns no-top-left at the frame corner, no-left on the first
column, no-top on the first row, and the default DC mode when both neighbours
exist. -/
theorem C6_check_mode (mb_x mb_y mode : ℕ) :
    (mode ≠ B_DC_PRED → CheckMode mb_x mb_y mode = mode) ∧
    (mb_x = 0 → mb_y = 0 → CheckMode mb_x mb_y B_DC_PRED = B_DC_PRED_NOTOPLEFT) ∧
    (mb_x = 0 → 0 < mb_y → CheckMode mb_x mb_y B_DC_PRED = B_DC_PRED_NOLEFT) ∧
    (0 < mb_x → mb_y = 0 → CheckMode mb_x mb_y B_DC_PRED = B_DC_PRED_NOTOP) ∧
    (0 < mb_x → 0 < mb_y → CheckMode mb_x mb_y B_DC_PRED = B_DC_PRED) := by
  unfold CheckMode
  refine ⟨fun h => if_neg h, ?_, ?_, ?_, ?_⟩ <;> intro hx hy <;>
    simp only [if_pos rfl] <;> split_ifs <;> first | rfl | omega

/-- C6 witness: the theorem applied at the four corner cases. -/
theorem C6_check_mode_witness :
    CheckMode 0 0 B_DC_PRED = B_DC_PRED_NOTOPLEFT ∧
    CheckMode 0 3 B_DC_PRED = B_DC_PRED_NOLEFT ∧
    CheckMode 2 0 B_DC_PRED = B_DC_PRED_NOTOP ∧
    CheckMode 2 3 B_DC_PRED = B_DC_PRED ∧
    CheckMode 2 3 7 = 7 :=
  ⟨(C6_check_mode 0 0 B_DC_PRED).2.1 rfl rfl,
   (C6_check_mode 0 3 B_DC_PRED).2.2.1 rfl (by decide),
   (C6_check_mode 2 0 B_DC_PRED).2.2.2.1 (by decide) rfl,
   (C6_check_mode 2 3 B_DC_PRED).2.2.2.2 (by decide) (by decide),
   (C6_check_mode 2 3 7).1 (by decide)⟩

/-! ### Inverse-transform dispatch (frame_dec.c, `DoTransform` / `DoUVTransform`) -/

/-- Which luma inverse-transform kernel `DoTransform` invokes. -/
inductive LumaTransform where
  | full
  | ac3
  | dc
  | skip
deriving DecidableEq

/-- `DoTransform` (frame_dec.c): dispatch on the top two bits of the 32-bit
non-zero-pattern word. -/
def DoTransform (bits : ℕ) : LumaTransform :=
  match bits >>> 30 with
  | 3 => .full
  | 2 => .ac3
  | 1 => .dc
  | _ => .skip

/-- Which chroma inverse-transform kernel `DoUVTransform` invokes. -/
inductive UVTransform where
  | uv
  | dcuv
  | skip
deriving DecidableEq

/-- `DoUVTransform` (frame_dec.c): run a UV transform when any of the low 8
bits is set, with the DC-only variant when no AC bit (mask 0xaa) is set. -/
def DoUVTransform (bits : ℕ) : UVTransform :=
  if bits &&& 0xff ≠ 0 then
    if bits &&& 0xaa ≠ 0 then .uv else .dcuv
  else .skip

/-- The non-zero-pattern word after the per-sub-block shift: in
`ReconstructRow` the 32-bit word is shifted left by 2 for each sub-block in
scan order (`bits <<= 2`). -/
def subBlockBits (bits n : ℕ) : ℕ := (bits <<< (2 * n)) % 2 ^ 32

theorem doTransform_cases (b : ℕ) (hb : b < 2 ^ 32) :
    (DoTransform b = .full ↔ b >>> 30 = 3) ∧
    (DoTransform b = .ac3 ↔ b >>> 30 = 2) ∧
    (DoTransform b = .dc ↔ b >>> 30 = 1) ∧
    (DoTransform b = .skip ↔ b >>> 30 = 0) := by
  have h4 : b >>> 30 < 4 := by
    simpa [Nat.shiftRight_eq_div_pow] using Nat.div_lt_of_lt_mul (by omega)
  unfold DoTransform
  interval_cases h : b >>> 30 <;> simp [h]

/-- C7: the luma dispatch for sub-block `n` is the top two bits of the pattern
word shifted left by `2*n` (3 = full 4x4 transform, 2 = AC3, 1 = DC-only,
0 = skip), and each chroma half runs the UV transform exactly when a low-8 bit
of its mask is set, the DC-only UV variant exactly when additionally
`mask &&& 0xaa = 0`. -/
theorem C7_transform_dispatch (bits n : ℕ) (_hb : bits < 2 ^ 32) :
    (DoTransform (subBlockBits bits n) = .full ↔ subBlockBits bits n >>> 30 = 3) ∧
    (DoTransform (subBlockBits bits n) = .ac3 ↔ subBlockBits bits n >>> 30 = 2) ∧
    (DoTransform (subBlockBits bits n) = .dc ↔ subBlockBits bits n >>> 30 = 1) ∧
    (DoTransform (subBlockBits bits n) = .skip ↔ subBlockBits bits n >>> 30 = 0) ∧
    (∀ mask : ℕ,
      (DoUVTransform mask ≠ .skip ↔ mask &&& 0xff ≠ 0) ∧
      (DoUVTransform mask = .dcuv ↔ mask &&& 0xff ≠ 0 ∧ mask &&& 0xaa = 0)) := by
  have hsub : subBlockBits bits n < 2 ^ 32 := Nat.mod_lt _ (by norm_num)
  obtain ⟨h3, h2, h1, h0⟩ := doTransform_cases _ hsub
  refine ⟨h3, h2, h1, h0, fun mask => ?_⟩
  unfold DoUVTransform
  by_cases hl : mask &&& 0xff = 0 <;> by_cases ha : mask &&& 0xaa = 0 <;>
    simp [hl, ha]

/-- C7 witness: the dispatch evaluated on concrete patterns. -/
theorem C7_transform_dispatch_witness :
    (DoTransform (subBlockBits 0xC0000000 0) = .full ↔
      subBlockBits 0xC0000000 0 >>> 30 = 3) ∧
    (DoTransform (subBlockBits 0xC0000000 0) = .ac3 ↔
      subBlockBits 0xC0000000 0 >>> 30 = 2) ∧
    (DoTransform (subBlockBits 0xC0000000 0) = .dc ↔
      subBlockBits 0xC0000000 0 >>> 30 = 1) ∧
    (DoTransform (subBlockBits 0xC0000000 0) = .skip ↔
      subBlockBits 0xC0000000 0 >>> 30 = 0) ∧
    (∀ mask : ℕ,
      (DoUVTransform mask ≠ .skip ↔ mask &&& 0xff ≠ 0) ∧
      (DoUVTransform mask = .dcuv ↔ mask &&& 0xff ≠ 0 ∧ mask &&& 0xaa = 0)) :=
  C7_transform_dispatch 0xC0000000 0 (by decide)

/-! ### Deblocking filter-strength precomputation (frame_dec.c,
`PrecomputeFilterStrengths`) -/

/-- The fields of `VP8FilterHeader` used by the precomputation. -/
structure VP8FilterHeader where
  level : ℤ
  sharpness : ℤ
  use_lf_delta : Bool
  ref_lf_delta0 : ℤ
  mode_lf_delta0 : ℤ
deriving DecidableEq

/-- The fields of `VP8SegmentHeader` used by the precomputation; the
per-segment `filter_strength[s]` entry is passed separately. -/
structure VP8SegmentHeader where
  use_segment : Bool
  absolute_delta : Bool
deriving DecidableEq

/-- The per-macroblock filter-strength record `VP8FInfo`. -/
structure VP8FInfo where
  f_limit : ℕ
  f_ilevel : ℕ
  f_inner : ℕ
  hev_thresh : ℕ
deriving DecidableEq

/-- The clamped filter level computed by the loop body of
`PrecomputeFilterStrengths` for one {segment, i4x4} pair: base level from the
segment header, the loop-filter deltas, then a clamp to [0,63]. -/
def precomputeLevel (seg : VP8SegmentHeader) (hdr : VP8FilterHeader)
    (seg_strength : ℤ) (i4x4 : ℕ) : ℕ :=
  let base_level : ℤ :=
    if seg.use_segment then
      if seg.absolute_delta then seg_strength else seg_strength + hdr.level
    else hdr.level
  let lvl : ℤ := base_level +
    (if hdr.use_lf_delta then
       hdr.ref_lf_delta0 + (if i4x4 ≠ 0 then hdr.mode_lf_delta0 else 0)
     else 0)
  (if lvl < 0 then 0 else if lvl > 63 then 63 else lvl).toNat

/-- The record stored by `PrecomputeFilterStrengths` for one {segment, i4x4}
pair.  In the `level = 0` branch only `f_limit` and `f_inner` are written, so
the record `old` previously in the slot supplies the remaining fields. -/
def precomputeFInfo (seg : VP8SegmentHeader) (hdr : VP8FilterHeader)
    (seg_strength : ℤ) (i4x4 : ℕ) (old : VP8FInfo) : VP8FInfo :=
  let level := precomputeLevel seg hdr seg_strength i4x4
  if 0 < level then
    let il0 : ℕ :=
      if 0 < hdr.sharpness then
        let sh := if 4 < hdr.sharpness then level / 4 else level / 2
        if (sh : ℤ) > 9 - hdr.sharpness then (9 - hdr.sharpness).toNat else sh
      else level
    let ilevel := if il0 < 1 then 1 else il0
    { f_ilevel := ilevel
      f_limit := 2 * level + ilevel
      f_inner := i4x4
      hev_thresh := if 40 ≤ level then 2 else if 15 ≤ level then 1 else 0 }
  else
    { old with f_limit := 0, f_inner := i4x4 }

/-- The record described by claim C2, which follows the spec's step 3
literally: `ilevel = max(1, level >> (sharpness > 4 ? 2 : 1))` if
`sharpness > 0` else `level`, then min'ed with `9 - sharpness`
unconditionally. -/
def claimC2FInfo (seg : VP8SegmentHeader) (hdr : VP8FilterHeader)
    (seg_strength : ℤ) (i4x4 : ℕ) (old : VP8FInfo) : VP8FInfo :=
  let level := precomputeLevel seg hdr seg_strength i4x4
  if 0 < level then
    let il0 : ℕ :=
      if 0 < hdr.sharpness then
        max 1 (if 4 < hdr.sharpness then level / 4 else level / 2)
      else level
    let ilevel : ℕ := min il0 (9 - hdr.sharpness).toNat
    { f_ilevel := ilevel
      f_limit := 2 * level + ilevel
      f_inner := i4x4
      hev_thresh := if 40 ≤ level then 2 else if 15 ≤ level then 1 else 0 }
  else
    { old with f_limit := 0, f_inner := i4x4 }

/-- The record produced when applying the spec's three steps as amended:
identical to the claim except that the cap at `9 - sharpness` applies only
when `sharpness > 0`. -/
def amendedC2FInfo (seg : VP8SegmentHeader) (hdr : VP8FilterHeader)
    (seg_strength : ℤ) (i4x4 : ℕ) (old : VP8FInfo) : VP8FInfo :=
  let level := precomputeLevel seg hdr seg_strength i4x4
  if 0 < level then
    let ilevel : ℕ :=
      if 0 < hdr.sharpness then
        max 1 (min (if 4 < hdr.sharpness then level / 4 else level / 2)
                   (9 - hdr.sharpness).toNat)
      else level
    { f_ilevel := ilevel
      f_limit := 2 * level + ilevel
      f_inner := i4x4
      hev_thresh := if 40 ≤ level then 2 else if 15 ≤ level then 1 else 0 }
  else
    { old with f_limit := 0, f_inner := i4x4 }

/-- C2 counterexample: with no segments, no deltas, global level 10 and
sharpness 0, the code stores `f_ilevel = 10`, `f_limit = 30`, while the
claim's formula caps `f_ilevel` at `9 - 0 = 9`, giving `f_limit = 29`. -/
theorem C2_counterexample :
    precomputeFInfo ⟨false, false⟩ ⟨10, 0, false, 0, 0⟩ 0 0 ⟨0, 0, 0, 0⟩ =
      ⟨30, 10, 0, 0⟩ ∧
    claimC2FInfo ⟨false, false⟩ ⟨10, 0, false, 0, 0⟩ 0 0 ⟨0, 0, 0, 0⟩ =
      ⟨29, 9, 0, 0⟩ ∧
    precomputeFInfo ⟨false, false⟩ ⟨10, 0, false, 0, 0⟩ 0 0 ⟨0, 0, 0, 0⟩ ≠
      claimC2FInfo ⟨false, false⟩ ⟨10, 0, false, 0, 0⟩ 0 0 ⟨0, 0, 0, 0⟩ := by
  refine ⟨by decide, by decide, by decide⟩

/-- C2 amended: for every segment strength, `is_i4x4` flag, and filter header
with level in [0,63] and sharpness in [0,7], the precomputed record equals the
spec's three steps with the single amendment that the `9 - sharpness` cap on
`ilevel` applies only when `sharpness > 0`. -/
theorem C2_filter_strengths (seg : VP8SegmentHeader) (hdr : VP8FilterHeader)
    (seg_strength : ℤ) (i4x4 : ℕ) (old : VP8FInfo)
    (_hlvl0 : 0 ≤ hdr.level) (_hlvl1 : hdr.level ≤ 63)
    (_hsh0 : 0 ≤ hdr.sharpness) (hsh1 : hdr.sharpness ≤ 7) :
    precomputeFInfo seg hdr seg_strength i4x4 old =
      amendedC2FInfo seg hdr seg_strength i4x4 old := by
  unfold precomputeFInfo amendedC2FInfo
  dsimp only
  split_ifs <;>
    first
      | rfl
      | (simp only [VP8FInfo.mk.injEq, and_true, true_and]; omega)

/-- C2 witness: the amended theorem at a concrete header. -/
theorem C2_filter_strengths_witness :
    precomputeFInfo ⟨true, false⟩ ⟨20, 3, true, 2, 1⟩ 5 1 ⟨0, 0, 0, 0⟩ =
      amendedC2FInfo ⟨true, false⟩ ⟨20, 3, true, 2, 1⟩ 5 1 ⟨0, 0, 0, 0⟩ :=
  C2_filter_strengths ⟨true, false⟩ ⟨20, 3, true, 2, 1⟩ 5 1 ⟨0, 0, 0, 0⟩
    (by decide) (by decide) (by decide) (by decide)

/-- C8: for every record produced by the precomputation, `f_limit = 0` iff the
final clamped level is 0, and when `f_limit` is non-zero it lies in [3,189],
`f_ilevel` lies in [1,63], `f_inner` equals the `is_i4x4` flag, and
`hev_thresh` lies in {0,1,2}. -/
theorem C8_finfo_invariants (seg : VP8SegmentHeader) (hdr : VP8FilterHeader)
    (seg_strength : ℤ) (i4x4 : ℕ) (old : VP8FInfo) (h4 : i4x4 ≤ 1) :
    ((precomputeFInfo seg hdr seg_strength i4x4 old).f_limit = 0 ↔
      precomputeLevel seg hdr seg_strength i4x4 = 0) ∧
    ((precomputeFInfo seg hdr seg_strength i4x4 old).f_limit ≠ 0 →
      3 ≤ (precomputeFInfo seg hdr seg_strength i4x4 old).f_limit ∧
      (precomputeFInfo seg hdr seg_strength i4x4 old).f_limit ≤ 189 ∧
      1 ≤ (precomputeFInfo seg hdr seg_strength i4x4 old).f_ilevel ∧
      (precomputeFInfo seg hdr seg_strength i4x4 old).f_ilevel ≤ 63 ∧
      (precomputeFInfo seg hdr seg_strength i4x4 old).hev_thresh ≤ 2) ∧
    (precomputeFInfo seg hdr seg_strength i4x4 old).f_inner = i4x4 ∧
    (precomputeFInfo seg hdr seg_strength i4x4 old).f_inner ≤ 1 := by
  have hlev : precomputeLevel seg hdr seg_strength i4x4 ≤ 63 := by
    unfold precomputeLevel
    dsimp only
    split_ifs <;> omega
  have hdiv4 : precomputeLevel seg hdr seg_strength i4x4 / 4 ≤
      precomputeLevel seg hdr seg_strength i4x4 := Nat.div_le_self _ _
  have hdiv2 : precomputeLevel seg hdr seg_strength i4x4 / 2 ≤
      precomputeLevel seg hdr seg_strength i4x4 := Nat.div_le_self _ _
  unfold precomputeFInfo
  dsimp only
  split_ifs <;>
    simp only [VP8FInfo.mk.injEq, and_true, true_and, true_iff, iff_true] <;>
    omega

/-- C8 witness: the invariants at a concrete header, both for a filtering and
a non-filtering level. -/
theorem C8_finfo_invariants_witness :
    ((precomputeFInfo ⟨false, false⟩ ⟨63, 0, false, 0, 0⟩ 0 1 ⟨0, 0, 0, 0⟩).f_limit = 0 ↔
      precomputeLevel ⟨false, false⟩ ⟨63, 0, false, 0, 0⟩ 0 1 = 0) ∧
    ((precomputeFInfo ⟨false, false⟩ ⟨63, 0, false, 0, 0⟩ 0 1 ⟨0, 0, 0, 0⟩).f_limit ≠ 0 →
      3 ≤ (precomputeFInfo ⟨false, false⟩ ⟨63, 0, false, 0, 0⟩ 0 1 ⟨0, 0, 0, 0⟩).f_limit ∧
      (precomputeFInfo ⟨false, false⟩ ⟨63, 0, false, 0, 0⟩ 0 1 ⟨0, 0, 0, 0⟩).f_limit ≤ 189 ∧
      1 ≤ (precomputeFInfo ⟨false, false⟩ ⟨63, 0, false, 0, 0⟩ 0 1 ⟨0, 0, 0, 0⟩).f_ilevel ∧
      (precomputeFInfo ⟨false, false⟩ ⟨63, 0, false, 0, 0⟩ 0 1 ⟨0, 0, 0, 0⟩).f_ilevel ≤ 63 ∧
      (precomputeFInfo ⟨false, false⟩ ⟨63, 0, false, 0, 0⟩ 0 1 ⟨0, 0, 0, 0⟩).hev_thresh ≤ 2) ∧
    (precomputeFInfo ⟨false, false⟩ ⟨63, 0, false, 0, 0⟩ 0 1 ⟨0, 0, 0, 0⟩).f_inner = 1 ∧
    (precomputeFInfo ⟨false, false⟩ ⟨63, 0, false, 0, 0⟩ 0 1 ⟨0, 0, 0, 0⟩).f_inner ≤ 1 :=
  C8_finfo_invariants ⟨false, false⟩ ⟨63, 0, false, 0, 0⟩ 0 1 ⟨0, 0, 0, 0⟩ (by decide)

/-! ### Lossless histograms: trivial-symbol tracking (histogram_enc.c,
`PopulationCost` / `UpdateHistogramCost` / `HistogramAdd`) -/

/-- `NUM_LITERAL_CODES` (format constants header). -/
def NUM_LITERAL_CODES : ℕ := 256

/-- `NUM_LENGTH_CODES` (format constants header). -/
def NUM_LENGTH_CODES : ℕ := 24

/-- `NUM_DISTANCE_CODES` (format constants header). -/
def NUM_DISTANCE_CODES : ℕ := 40

/-- Modelled from the spec: `VP8LHistogramNumCodes(cache_bits)` (histogram
header, not in the source slice): literals plus length-prefix codes plus the
optional color-cache codes. -/
def VP8LHistogramNumCodes (cache_bits : ℕ) : ℕ :=
  NUM_LITERAL_CODES + NUM_LENGTH_CODES +
    (if 0 < cache_bits then 2 ^ cache_bits else 0)

/-- The `VP8LHistogram` fields relevant to trivial-symbol tracking; populations
are the count arrays, indices are the symbols. -/
structure VP8LHistogram where
  literal : List ℕ
  red : List ℕ
  blue : List ℕ
  alpha : List ℕ
  distance : List ℕ
  trivial_symbol : ℕ
  bit_cost : ℕ
deriving DecidableEq

/-- Modelled from the spec: the `nonzeros` statistic of the dsp entropy scan
`VP8LGetEntropyUnrefined` (not in the source slice): the number of symbols
with a non-zero count. -/
def nonzeros (pop : List ℕ) : ℕ := (pop.filter (fun c => c != 0)).length

/-- Modelled from the spec: the `nonzero_code` statistic of the dsp entropy
scan (not in the source slice): the index of the non-zero symbol; it is the
unique such index when `nonzeros = 1`, the only case in which the caller reads
it. -/
def nonzeroCode (pop : List ℕ) : ℕ := pop.findIdx (fun c => c != 0)

/-- The `trivial_sym` output of `PopulationCost` (histogram_enc.c): the single
non-zero symbol when exactly one is present, else the sentinel. -/
def populationTrivialSym (pop : List ℕ) : ℕ :=
  if nonzeros pop = 1 then nonzeroCode pop else NON_TRIVIAL_SYM

/-- The `trivial_symbol` stored by `UpdateHistogramCost` (histogram_enc.c):
the trivial symbols of the alpha, red and blue populations are OR-combined and
tested against the sentinel, then packed as
`(alpha_sym << 24) | (red_sym << 16) | (blue_sym << 0)`. -/
def updateTrivialSymbol (h : VP8LHistogram) : ℕ :=
  let alpha_sym := populationTrivialSym h.alpha
  let red_sym := populationTrivialSym h.red
  let blue_sym := populationTrivialSym h.blue
  if (alpha_sym ||| red_sym ||| blue_sym) = NON_TRIVIAL_SYM then
    NON_TRIVIAL_SYM
  else
    (alpha_sym <<< 24) ||| (red_sym <<< 16) ||| blue_sym

/-- The `trivial_symbol` asserted by claim C1: it additionally requires exactly
one non-zero literal count and an unused distance distribution, and packs the
literal symbol into bits 8..15. -/
def claimC1TrivialSymbol (h : VP8LHistogram) : ℕ :=
  if nonzeros h.literal = 1 ∧ nonzeros h.red = 1 ∧ nonzeros h.blue = 1 ∧
      nonzeros h.alpha = 1 ∧ nonzeros h.distance = 0 then
    (populationTrivialSym h.alpha <<< 24) |||
      (populationTrivialSym h.red <<< 16) |||
      (populationTrivialSym h.literal <<< 8) |||
      populationTrivialSym h.blue
  else NON_TRIVIAL_SYM

/-- A population with exactly one non-zero count, located at index `i`. -/
def UniqueNonzeroAt (pop : List ℕ) (i : ℕ) : Prop :=
  i < pop.length ∧ pop.getD i 0 ≠ 0 ∧
    ∀ j, j < pop.length → j ≠ i → pop.getD j 0 = 0

theorem nonzeros_eq_zero (pop : List ℕ) :
    nonzeros pop = 0 ↔ ∀ j, j < pop.length → pop.getD j 0 = 0 := by
  induction pop with
  | nil => simp [nonzeros]
  | cons c r ih =>
    constructor
    · intro h j hj
      have hc : c = 0 ∧ nonzeros r = 0 := by
        by_cases hc : c = 0
        · refine ⟨hc, ?_⟩
          simpa [nonzeros, List.filter_cons, hc] using h
        · exfalso
          simp [nonzeros, List.filter_cons, hc] at h
      match j with
      | 0 => simpa using hc.1
      | j + 1 =>
        have hj' : j < r.length := by simpa using hj
        simpa using (ih.mp hc.2) j hj'
    · intro h
      have hc : c = 0 := by simpa using h 0 (by simp)
      have hr : ∀ j, j < r.length → r.getD j 0 = 0 := by
        intro j hj
        simpa using h (j + 1) (by simpa using Nat.succ_lt_succ hj)
      simpa [nonzeros, List.filter_cons, hc] using ih.mpr hr

theorem uniqueNonzero_stats (pop : List ℕ) (i : ℕ) (h : UniqueNonzeroAt pop i) :
    nonzeros pop = 1 ∧ nonzeroCode pop = i := by
  induction pop generalizing i with
  | nil => exact absurd h.1 (by simp)
  | cons c r ih =>
    obtain ⟨hi, hnz, hall⟩ := h
    match i with
    | 0 =>
      have hc : c ≠ 0 := by simpa using hnz
      have hr0 : nonzeros r = 0 := by
        rw [nonzeros_eq_zero]
        intro j hj
        simpa using hall (j + 1) (by simpa using Nat.succ_lt_succ hj) (by omega)
      have hcb : (c != 0) = true := by simpa using hc
      constructor
      · simpa [nonzeros, List.filter_cons, hc] using hr0
      · simp [nonzeroCode, List.findIdx_cons, hcb]
    | i' + 1 =>
      have hc : c = 0 := by simpa using hall 0 (by simp) (by omega)
      have hsub : UniqueNonzeroAt r i' := by
        refine ⟨by simpa using hi, by simpa using hnz, ?_⟩
        intro j hj hne
        simpa using hall (j + 1) (by simpa using Nat.succ_lt_succ hj) (by omega)
      have hcb : (c != 0) = false := by simpa using hc
      obtain ⟨h1, h2⟩ := ih i' hsub
      constructor
      · simpa [nonzeros, List.filter_cons, hc] using h1
      · simpa [nonzeroCode, List.findIdx_cons, hcb] using h2

theorem uniqueNonzero_of_nonzeros_one (pop : List ℕ) (h : nonzeros pop = 1) :
    ∃ i, UniqueNonzeroAt pop i := by
  induction pop with
  | nil => simp [nonzeros] at h
  | cons c r ih =>
    by_cases hc : c = 0
    · have hr : nonzeros r = 1 := by simpa [nonzeros, List.filter_cons, hc] using h
      obtain ⟨i, hi, hnz, hall⟩ := ih hr
      refine ⟨i + 1, by simpa using Nat.succ_lt_succ hi, by simpa using hnz, ?_⟩
      intro j hj hne
      match j with
      | 0 => simpa using hc
      | j + 1 =>
        have hj' : j < r.length := by simpa using hj
        simpa using hall j hj' (by omega)
    · have hr : nonzeros r = 0 := by
        have h' := h
        simp only [nonzeros, List.filter_cons] at h'
        simp only [bne_iff_ne, ne_eq, hc, not_false_eq_true, if_pos,
          List.length_cons] at h'
        simpa [nonzeros] using h'
      refine ⟨0, by simp, by simpa using hc, ?_⟩
      intro j hj hne
      match j with
      | 0 => omega
      | j + 1 =>
        have hj' : j < r.length := by simpa using hj
        simpa using (nonzeros_eq_zero r).mp hr j hj'

theorem populationTrivialSym_of_unique (pop : List ℕ) (i : ℕ)
    (h : UniqueNonzeroAt pop i) : populationTrivialSym pop = i := by
  obtain ⟨h1, h2⟩ := uniqueNonzero_stats pop i h
  simp [populationTrivialSym, h1, h2]

theorem populationTrivialSym_of_not_unique (pop : List ℕ)
    (h : ¬ ∃ i, UniqueNonzeroAt pop i) :
    populationTrivialSym pop = NON_TRIVIAL_SYM := by
  unfold populationTrivialSym
  split_ifs with h1
  · exact absurd (uniqueNonzero_of_nonzeros_one pop h1) h
  · rfl

theorem populationTrivialSym_cases (pop : List ℕ) (hlen : pop.length = 256) :
    populationTrivialSym pop = NON_TRIVIAL_SYM ∨
      populationTrivialSym pop < 256 := by
  unfold populationTrivialSym
  split_ifs with h1
  · right
    have hne : pop.filter (fun c => c != 0) ≠ [] := by
      intro hnil
      rw [nonzeros, hnil] at h1
      simp at h1
    obtain ⟨x, hx⟩ := List.exists_mem_of_ne_nil _ hne
    have hx' := List.mem_filter.mp hx
    have := List.findIdx_lt_length_of_exists (p := fun c => c != 0) ⟨x, hx'.1, hx'.2⟩
    rw [nonzeroCode]
    omega
  · left; rfl

theorem or_nonTrivial_right (x : ℕ) (hx : x < 2 ^ 32) :
    x ||| NON_TRIVIAL_SYM = NON_TRIVIAL_SYM := by
  have hmask : NON_TRIVIAL_SYM = 2 ^ 32 - 1 := rfl
  rw [hmask]
  apply Nat.eq_of_testBit_eq
  intro i
  rw [Nat.testBit_or, Nat.testBit_two_pow_sub_one]
  rcases lt_or_ge i 32 with hi | hi
  · simp [hi]
  · have hxb : x.testBit i = false := by
      apply Nat.testBit_lt_two_pow
      exact lt_of_lt_of_le hx (Nat.pow_le_pow_right (by norm_num) hi)
    simp [hxb, Nat.not_lt.mpr hi]

theorem or_nonTrivial_left (x : ℕ) (hx : x < 2 ^ 32) :
    NON_TRIVIAL_SYM ||| x = NON_TRIVIAL_SYM := by
  rw [Nat.or_comm]
  exact or_nonTrivial_right x hx

theorem packed_ne_nonTrivial (a r b : ℕ) (hb : b < 256) :
    (a <<< 24) ||| (r <<< 16) ||| b ≠ NON_TRIVIAL_SYM := by
  intro hcontra
  have h8 := congrArg (fun x => x.testBit 8) hcontra
  have hbb : b.testBit 8 = false := Nat.testBit_lt_two_pow hb
  have hmask : NON_TRIVIAL_SYM = 2 ^ 32 - 1 := rfl
  rw [hmask] at h8
  simp only [Nat.testBit_or, Nat.testBit_shiftLeft, hbb,
    Nat.testBit_two_pow_sub_one] at h8
  simp at h8

/-- C1 counterexample: a histogram whose alpha, red, blue populations each
hold one non-zero count (at 3, 1, 2), whose literal population holds two
non-zero counts and whose distance population is used.  The code still packs
`trivial_symbol = (3 << 24) | (1 << 16) | 2`, whereas the claim demands the
reserved NON_TRIVIAL value (and, had the literal count been unique, a literal
byte at bits 8..15 which the code never writes). -/
def exHistC1 : VP8LHistogram :=
  { literal := ((List.replicate 280 0).set 5 1).set 6 1
    red := (List.replicate 256 0).set 1 1
    blue := (List.replicate 256 0).set 2 1
    alpha := (List.replicate 256 0).set 3 1
    distance := (List.replicate 40 0).set 4 7
    trivial_symbol := 0
    bit_cost := 0 }

set_option maxRecDepth 100000 in
theorem C1_counterexample :
    updateTrivialSymbol exHistC1 = 0x03010002 ∧
    claimC1TrivialSymbol exHistC1 = NON_TRIVIAL_SYM ∧
    updateTrivialSymbol exHistC1 ≠ claimC1TrivialSymbol exHistC1 := by
  refine ⟨by decide, by decide, by decide⟩

/-- C1 amended: `UpdateHistogramCost` sets `trivial_symbol` to
`(A << 24) | (R << 16) | B` exactly when each of the alpha, red and blue
populations has exactly one non-zero count (at indices A, R, B); the literal
and distance populations play no role and no literal byte is packed.  In every
other case the sentinel is stored. -/
theorem C1_trivial_symbol (h : VP8LHistogram)
    (hA : h.alpha.length = 256) (hR : h.red.length = 256)
    (hB : h.blue.length = 256) :
    (∀ A R B : ℕ, UniqueNonzeroAt h.alpha A → UniqueNonzeroAt h.red R →
      UniqueNonzeroAt h.blue B →
      updateTrivialSymbol h = (A <<< 24) ||| (R <<< 16) ||| B ∧
      updateTrivialSymbol h ≠ NON_TRIVIAL_SYM) ∧
    ((¬ ∃ A, UniqueNonzeroAt h.alpha A) ∨ (¬ ∃ R, UniqueNonzeroAt h.red R) ∨
      (¬ ∃ B, UniqueNonzeroAt h.blue B) →
      updateTrivialSymbol h = NON_TRIVIAL_SYM) := by
  have hacases := populationTrivialSym_cases h.alpha hA
  have hrcases := populationTrivialSym_cases h.red hR
  have hbcases := populationTrivialSym_cases h.blue hB
  have hlt : ∀ x : ℕ, x = NON_TRIVIAL_SYM ∨ x < 256 → x < 2 ^ 32 := by
    intro x hx
    rcases hx with hx | hx
    · rw [hx, NON_TRIVIAL_SYM]; norm_num
    · omega
  constructor
  · intro A R B hUA hUR hUB
    have hsa := populationTrivialSym_of_unique _ _ hUA
    have hsr := populationTrivialSym_of_unique _ _ hUR
    have hsb := populationTrivialSym_of_unique _ _ hUB
    have hAlt : A < 256 := hA ▸ hUA.1
    have hRlt : R < 256 := hR ▸ hUR.1
    have hBlt : B < 256 := hB ▸ hUB.1
    have hor : (populationTrivialSym h.alpha ||| populationTrivialSym h.red |||
        populationTrivialSym h.blue) ≠ NON_TRIVIAL_SYM := by
      rw [hsa, hsr, hsb]
      have h1 : A ||| R < 256 := Nat.or_lt_two_pow (n := 8) hAlt hRlt
      have h2 : A ||| R ||| B < 256 := Nat.or_lt_two_pow (n := 8) h1 hBlt
      rw [NON_TRIVIAL_SYM]
      omega
    unfold updateTrivialSymbol
    rw [if_neg hor, hsa, hsr, hsb]
    exact ⟨rfl, packed_ne_nonTrivial A R B hBlt⟩
  · intro hcase
    have hor : (populationTrivialSym h.alpha ||| populationTrivialSym h.red |||
        populationTrivialSym h.blue) = NON_TRIVIAL_SYM := by
      rcases hcase with hc | hc | hc
      · rw [populationTrivialSym_of_not_unique _ hc,
          or_nonTrivial_left _ (hlt _ hrcases),
          or_nonTrivial_left _ (hlt _ hbcases)]
      · rw [populationTrivialSym_of_not_unique _ hc,
          or_nonTrivial_right _ (hlt _ hacases),
          or_nonTrivial_left _ (hlt _ hbcases)]
      · have h1 : populationTrivialSym h.alpha < 2 ^ 32 := hlt _ hacases
        have h2 : populationTrivialSym h.red < 2 ^ 32 := hlt _ hrcases
        have h12 : populationTrivialSym h.alpha ||| populationTrivialSym h.red <
            2 ^ 32 := Nat.or_lt_two_pow (n := 32) h1 h2
        rw [populationTrivialSym_of_not_unique _ hc]
        exact or_nonTrivial_right _ h12
    unfold updateTrivialSymbol
    rw [if_pos hor]

/-- C1 witness: the amended theorem at a histogram whose alpha, red, blue
populations each hold a single non-zero count. -/
def exHistC1b : VP8LHistogram :=
  { literal := ((List.replicate 280 0).set 5 1).set 6 1
    red := (List.replicate 256 0).set 1 1
    blue := (List.replicate 256 0).set 2 1
    alpha := (List.replicate 256 0).set 3 1
    distance := (List.replicate 40 0).set 4 7
    trivial_symbol := 0
    bit_cost := 0 }

set_option maxRecDepth 100000 in
theorem C1_trivial_symbol_witness :
    updateTrivialSymbol exHistC1b = (3 <<< 24) ||| (1 <<< 16) ||| 2 ∧
    updateTrivialSymbol exHistC1b ≠ NON_TRIVIAL_SYM :=
  (C1_trivial_symbol exHistC1b (by decide) (by decide) (by decide)).1 3 1 2
    ⟨by decide, by decide, by decide⟩ ⟨by decide, by decide, by decide⟩
    ⟨by decide, by decide, by decide⟩

/-- Modelled from the spec: `VP8LHistogramAdd` (dsp, not in the source slice)
adds the two population arrays elementwise. -/
def popAdd (a b : List ℕ) : List ℕ := List.zipWith (fun x y => x + y) a b

/-- `HistogramAdd` (histogram_enc.c): `out = a + b` for the populations, with
`trivial_symbol` kept only when the two inputs agree.  `out` supplies the
fields the C function leaves untouched. -/
def HistogramAdd (a b out : VP8LHistogram) : VP8LHistogram :=
  { literal := popAdd a.literal b.literal
    red := popAdd a.red b.red
    blue := popAdd a.blue b.blue
    alpha := popAdd a.alpha b.alpha
    distance := popAdd a.distance b.distance
    trivial_symbol :=
      if a.trivial_symbol = b.trivial_symbol then a.trivial_symbol
      else NON_TRIVIAL_SYM
    bit_cost := out.bit_cost }

/-- C9: the histogram-sum keeps `a`'s trivial symbol exactly when the two
inputs carry the same value different from the sentinel, and stores the
sentinel in every other case (including when both inputs are already the
sentinel). -/
theorem C9_histogram_add_trivial (a b out : VP8LHistogram) :
    (HistogramAdd a b out).trivial_symbol =
      if a.trivial_symbol = b.trivial_symbol ∧
          a.trivial_symbol ≠ NON_TRIVIAL_SYM then
        a.trivial_symbol
      else NON_TRIVIAL_SYM := by
  unfold HistogramAdd
  dsimp only
  by_cases h1 : a.trivial_symbol = b.trivial_symbol
  · by_cases h2 : a.trivial_symbol = NON_TRIVIAL_SYM
    · rw [if_pos h1, if_neg (fun hcon => hcon.2 h2)]
      exact h2
    · rw [if_pos h1, if_pos ⟨h1, h2⟩]
  · rw [if_neg h1, if_neg (fun hcon => h1 hcon.1)]

/-! ### Combined-entropy evaluation with threshold bail-out
(histogram_enc.c, `GetCombinedHistogramEntropy` and its callers).

The per-class entropy `GetCombinedEntropy` calls dsp scan primitives that are
absent from the source slice (`VP8LGetCombinedEntropyUnrefined` and friends);
their result is abstracted as an oracle `ce index trivial_at_end` giving the
combined bit cost of one symbol class.  Everything layered above the oracle is
translated from the source. -/

/-- The cost-relevant histogram fields used by the combine and eval
functions. -/
structure HModel where
  bit_cost : ℕ
  trivial_symbol : ℕ
deriving DecidableEq

/-- The `trivial_at_end` test at the top of `GetCombinedHistogramEntropy`:
identical non-sentinel trivial symbols whose alpha, red and blue bytes are
each 0 or 0xff. -/
def trivialAtEnd (a b : HModel) : Bool :=
  if a.trivial_symbol ≠ NON_TRIVIAL_SYM ∧
      a.trivial_symbol = b.trivial_symbol then
    let color_a := (a.trivial_symbol >>> 24) &&& 0xff
    let color_r := (a.trivial_symbol >>> 16) &&& 0xff
    let color_b := (a.trivial_symbol >>> 0) &&& 0xff
    decide ((color_a = 0 ∨ color_a = 0xff) ∧ (color_r = 0 ∨ color_r = 0xff) ∧
      (color_b = 0 ∨ color_b = 0xff))
  else false

/-- `GetCombinedHistogramEntropy` (histogram_enc.c): accumulate the per-class
combined entropies (class 0 = literal, then red, blue, alpha with the
`trivial_at_end` flag, then distance), bailing out as soon as the running sum
reaches the threshold; a non-positive threshold fails immediately. -/
def GetCombinedHistogramEntropy (a b : HModel) (ce : Fin 5 → Bool → ℕ)
    (cost_threshold_in : ℤ) : Option ℕ :=
  if cost_threshold_in ≤ 0 then none
  else
    let cost_threshold := cost_threshold_in.toNat
    let tae := trivialAtEnd a b
    let c0 := ce 0 false
    if cost_threshold ≤ c0 then none else
    let c1 := c0 + ce 1 tae
    if cost_threshold ≤ c1 then none else
    let c2 := c1 + ce 2 tae
    if cost_threshold ≤ c2 then none else
    let c3 := c2 + ce 3 tae
    if cost_threshold ≤ c3 then none else
    let c4 := c3 + ce 4 false
    if cost_threshold ≤ c4 then none else
    some c4

/-- The full combined entropy of the five symbol classes, with no bail-out. -/
def combinedTotal (a b : HModel) (ce : Fin 5 → Bool → ℕ) : ℕ :=
  let tae := trivialAtEnd a b
  ce 0 false + ce 1 tae + ce 2 tae + ce 3 tae + ce 4 false

/-- The threshold bail-out is exact: the evaluation succeeds exactly when the
full combined entropy is below a positive threshold, because the running
partial sums are monotone. -/
theorem gche_eq (a b : HModel) (ce : Fin 5 → Bool → ℕ) (t : ℤ) :
    GetCombinedHistogramEntropy a b ce t =
      if 0 < t ∧ combinedTotal a b ce < t.toNat then
        some (combinedTotal a b ce)
      else none := by
  unfold GetCombinedHistogramEntropy combinedTotal
  dsimp only
  split_ifs <;> first | rfl | omega

theorem saturateAdd_eq (a : ℕ) (b : ℤ) (ha : (a : ℤ) < 2 ^ 63)
    (hab : (a : ℤ) + b ≤ 2 ^ 63 - 1) : SaturateAdd a b = b + a := by
  unfold SaturateAdd int64OfUInt64 INT64_MAX
  split_ifs <;> omega

/-- The `trivial_symbol` stored into `out` by `HistogramAdd` as invoked from
`HistogramAddEval`. -/
def evalCombinedTrivial (a b : HModel) : ℕ :=
  if a.trivial_symbol = b.trivial_symbol then a.trivial_symbol
  else NON_TRIVIAL_SYM

/-- `HistogramAddEval` (histogram_enc.c): evaluate `out = a + b` against
`cost_threshold + C(a) + C(b)`; on success returns the combined cost and the
trivial symbol that `HistogramAdd` stores into `out`. -/
def HistogramAddEval (a b : HModel) (ce : Fin 5 → Bool → ℕ)
    (cost_threshold : ℤ) : Option (ℕ × ℕ) :=
  let sum_cost : ℕ := a.bit_cost + b.bit_cost
  match GetCombinedHistogramEntropy a b ce
      (SaturateAdd sum_cost cost_threshold) with
  | none => none
  | some cost => some (cost, evalCombinedTrivial a b)

/-- `GetCombineCostFactor` (histogram_enc.c): 16, scaled down by powers of two
as the histogram count grows and the quality decreases. -/
def GetCombineCostFactor (histo_size quality : ℕ) : ℕ :=
  let f0 : ℕ := 16
  if quality < 90 then
    let f1 := if 256 < histo_size then f0 / 2 else f0
    let f2 := if 512 < histo_size then f1 / 2 else f1
    let f3 := if 1024 < histo_size then f2 / 2 else f2
    if quality ≤ 50 then f3 / 2 else f3
  else f0

/-- The decision taken by `HistogramCombineEntropyBin` (non-low-effort branch)
for one candidate tile `idx` against its bin's `first` tile, given the bin's
current combine-failure count: whether the fold is performed, and the updated
failure count. -/
def entropyBinStep (first idx : HModel) (ce : Fin 5 → Bool → ℕ)
    (combine_cost_factor : ℕ) (num_combine_failures : ℕ) : Bool × ℕ :=
  let bit_cost := idx.bit_cost
  let bit_cost_thresh : ℤ :=
    -((divRound (bit_cost * combine_cost_factor) 100 : ℕ) : ℤ)
  match HistogramAddEval first idx ce bit_cost_thresh with
  | none => (false, num_combine_failures)
  | some (_, combo_trivial) =>
    let try_combine := combo_trivial ≠ NON_TRIVIAL_SYM ∨
      (idx.trivial_symbol = NON_TRIVIAL_SYM ∧
        first.trivial_symbol = NON_TRIVIAL_SYM)
    if try_combine ∨ 32 ≤ num_combine_failures then
      (true, num_combine_failures)
    else (false, num_combine_failures + 1)

/-- The acceptance condition asserted by claim C4: the fold is accepted exactly
when the combined cost is at most
`first.bit_cost + tile.bit_cost - tile.bit_cost * combine_cost_factor / 100`,
with the next merge forced unconditionally once 32 failures accumulated. -/
def claimC4Accept (first idx : HModel) (ce : Fin 5 → Bool → ℕ)
    (combine_cost_factor : ℕ) (num_combine_failures : ℕ) : Prop :=
  (combinedTotal first idx ce : ℤ) ≤
      (first.bit_cost : ℤ) + (idx.bit_cost : ℤ) -
        ((idx.bit_cost * combine_cost_factor / 100 : ℕ) : ℤ) ∨
    32 ≤ num_combine_failures

/-- C4 counterexample: the bin's first tile carries trivial symbol 5, the
candidate none; the combined cost (oracle 0) is far below the claimed
threshold, yet the code refuses the fold (and counts a failure) because the
merged histogram is non-trivial while the inputs are not both non-trivial. -/
theorem C4_counterexample :
    entropyBinStep ⟨2000, 5⟩ ⟨1000, NON_TRIVIAL_SYM⟩ (fun _ _ => 0) 16 0 =
      (false, 1) ∧
    claimC4Accept ⟨2000, 5⟩ ⟨1000, NON_TRIVIAL_SYM⟩ (fun _ _ => 0) 16 0 := by
  refine ⟨by decide, Or.inl (by decide)⟩

/-- C4 amended: the fold is performed exactly when the combined cost is
strictly below `first.bit_cost + tile.bit_cost - DivRound(tile.bit_cost *
combine_cost_factor, 100)` and additionally either the merged trivial symbol
is non-sentinel, or both inputs carry the sentinel, or at least 32 failures
have accumulated in the bin; the failure count grows exactly when the cost
test passes but the trivial-symbol condition fails with fewer than 32 prior
failures. -/
theorem C4_entropy_bin (first idx : HModel) (ce : Fin 5 → Bool → ℕ)
    (ccf fails : ℕ)
    (hb1 : first.bit_cost ≤ 2 ^ 61) (hb2 : idx.bit_cost ≤ 2 ^ 61) :
    ((entropyBinStep first idx ce ccf fails).1 = true ↔
      ((combinedTotal first idx ce : ℤ) <
          (first.bit_cost : ℤ) + (idx.bit_cost : ℤ) -
            ((divRound (idx.bit_cost * ccf) 100 : ℕ) : ℤ) ∧
        ((evalCombinedTrivial first idx ≠ NON_TRIVIAL_SYM ∨
            (idx.trivial_symbol = NON_TRIVIAL_SYM ∧
              first.trivial_symbol = NON_TRIVIAL_SYM)) ∨
          32 ≤ fails))) ∧
    ((entropyBinStep first idx ce ccf fails).2 = fails + 1 ↔
      ((combinedTotal first idx ce : ℤ) <
          (first.bit_cost : ℤ) + (idx.bit_cost : ℤ) -
            ((divRound (idx.bit_cost * ccf) 100 : ℕ) : ℤ) ∧
        ¬((evalCombinedTrivial first idx ≠ NON_TRIVIAL_SYM ∨
            (idx.trivial_symbol = NON_TRIVIAL_SYM ∧
              first.trivial_symbol = NON_TRIVIAL_SYM)) ∨
          32 ≤ fails))) := by
  have hsum := saturateAdd_eq (first.bit_cost + idx.bit_cost)
    (-((divRound (idx.bit_cost * ccf) 100 : ℕ) : ℤ)) (by omega) (by omega)
  unfold entropyBinStep HistogramAddEval
  dsimp only
  rw [hsum, gche_eq]
  by_cases hA : (combinedTotal first idx ce : ℤ) <
      (first.bit_cost : ℤ) + (idx.bit_cost : ℤ) -
        ((divRound (idx.bit_cost * ccf) 100 : ℕ) : ℤ)
  · rw [if_pos (by constructor <;> omega)]
    dsimp only
    by_cases hB : (evalCombinedTrivial first idx ≠ NON_TRIVIAL_SYM ∨
        (idx.trivial_symbol = NON_TRIVIAL_SYM ∧
          first.trivial_symbol = NON_TRIVIAL_SYM)) ∨ 32 ≤ fails
    · rw [if_pos hB]
      exact ⟨iff_of_true rfl ⟨hA, hB⟩, iff_of_false (by omega) (fun h => h.2 hB)⟩
    · rw [if_neg hB]
      exact ⟨iff_of_false (by simp) (fun h => hB h.2),
        iff_of_true rfl ⟨hA, hB⟩⟩
  · rw [if_neg (fun hcon => hA (by omega))]
    dsimp only
    exact ⟨iff_of_false (by simp) (fun h => hA h.1),
      iff_of_false (by omega) (fun h => hA h.1)⟩

/-- C4 witness: the amended theorem at the counterexample instance. -/
theorem C4_entropy_bin_witness :
    ((entropyBinStep ⟨2000, 5⟩ ⟨1000, NON_TRIVIAL_SYM⟩ (fun _ _ => 0) 16 0).1 =
        true ↔
      ((combinedTotal ⟨2000, 5⟩ ⟨1000, NON_TRIVIAL_SYM⟩ (fun _ _ => 0) : ℤ) <
          ((2000 : ℕ) : ℤ) + ((1000 : ℕ) : ℤ) -
            ((divRound (1000 * 16) 100 : ℕ) : ℤ) ∧
        ((evalCombinedTrivial ⟨2000, 5⟩ ⟨1000, NON_TRIVIAL_SYM⟩ ≠
              NON_TRIVIAL_SYM ∨
            ((NON_TRIVIAL_SYM : ℕ) = NON_TRIVIAL_SYM ∧
              (5 : ℕ) = NON_TRIVIAL_SYM)) ∨
          32 ≤ 0))) ∧
    ((entropyBinStep ⟨2000, 5⟩ ⟨1000, NON_TRIVIAL_SYM⟩ (fun _ _ => 0) 16 0).2 =
        0 + 1 ↔
      ((combinedTotal ⟨2000, 5⟩ ⟨1000, NON_TRIVIAL_SYM⟩ (fun _ _ => 0) : ℤ) <
          ((2000 : ℕ) : ℤ) + ((1000 : ℕ) : ℤ) -
            ((divRound (1000 * 16) 100 : ℕ) : ℤ) ∧
        ¬((evalCombinedTrivial ⟨2000, 5⟩ ⟨1000, NON_TRIVIAL_SYM⟩ ≠
              NON_TRIVIAL_SYM ∨
            ((NON_TRIVIAL_SYM : ℕ) = NON_TRIVIAL_SYM ∧
              (5 : ℕ) = NON_TRIVIAL_SYM)) ∨
          32 ≤ 0))) :=
  C4_entropy_bin ⟨2000, 5⟩ ⟨1000, NON_TRIVIAL_SYM⟩ (fun _ _ => 0) 16 0
    (by norm_num) (by norm_num)

/-! ### Final remap (histogram_enc.c, `HistogramRemap`) -/

/-- `HistogramAddThresh` (histogram_enc.c): the added cost `C(a+b) - C(a)` of
folding tile `b` into cluster `a`, evaluated with the threshold bail-out;
`none` on bail. -/
def HistogramAddThresh (a b : HModel) (ce : Fin 5 → Bool → ℕ)
    (cost_threshold : ℤ) : Option ℤ :=
  match GetCombinedHistogramEntropy a b ce
      (SaturateAdd a.bit_cost cost_threshold) with
  | none => none
  | some cost => some ((cost : ℤ) - (a.bit_cost : ℤ))

/-- One step of `HistogramRemap`'s inner scan over the final clusters: on a
successful threshold evaluation the running `(best_out, best_bits)` pair is
replaced by `(k, cur_bits)`. -/
def remapStep (outH : List HModel) (b : HModel) (ce : ℕ → Fin 5 → Bool → ℕ)
    (acc : ℕ × ℤ) (k : ℕ) : ℕ × ℤ :=
  match HistogramAddThresh (outH.getD k ⟨0, 0⟩) b (ce k) acc.2 with
  | some cur => (k, cur)
  | none => acc

/-- The inner loop of `HistogramRemap` for one present tile: scan the final
clusters `k = 0 .. out_size - 1` starting from `(0, WEBP_INT64_MAX)`. -/
def remapBest (outH : List HModel) (b : HModel)
    (ce : ℕ → Fin 5 → Bool → ℕ) : ℕ × ℤ :=
  (List.range outH.length).foldl (remapStep outH b ce) (0, INT64_MAX)

/-- `HistogramRemap`'s per-tile symbol assignment in the `out_size > 1`
branch: present tiles get the best final cluster, absent tiles adopt the
previous tile's assignment (the C code reads `symbols[i-1]`, carried here as
`prev`). -/
def remapSymbolsGo (outH : List HModel) (ce : ℕ → ℕ → Fin 5 → Bool → ℕ) :
    List (Option HModel) → ℕ → ℕ → List ℕ
  | [], _, _ => []
  | some b :: rest, i, _ =>
    (remapBest outH b (ce i)).1 ::
      remapSymbolsGo outH ce rest (i + 1) (remapBest outH b (ce i)).1
  | none :: rest, i, prev => prev :: remapSymbolsGo outH ce rest (i + 1) prev

/-- The symbols written by `HistogramRemap`: the scan when `out_size > 1`,
and all zeros when the final cluster set is a single histogram. -/
def HistogramRemapSymbols (inH : List (Option HModel)) (outH : List HModel)
    (ce : ℕ → ℕ → Fin 5 → Bool → ℕ) : List ℕ :=
  if 1 < outH.length then remapSymbolsGo outH ce inH 0 0
  else List.replicate inH.length 0

/-- The added cost of assigning tile `b` to final cluster `k`,
`C(out[k] + b) - C(out[k])`. -/
def addedCost (outH : List HModel) (b : HModel) (ce : ℕ → Fin 5 → Bool → ℕ)
    (k : ℕ) : ℤ :=
  (combinedTotal (outH.getD k ⟨0, 0⟩) b (ce k) : ℤ) -
    ((outH.getD k ⟨0, 0⟩).bit_cost : ℤ)

/-- `symbols[i]` is the final cluster with the least added cost, ties broken
toward the lowest index. -/
def IsBestAssignment (outH : List HModel) (b : HModel)
    (ce : ℕ → Fin 5 → Bool → ℕ) (s : ℕ) : Prop :=
  s < outH.length ∧
  (∀ j, j < outH.length → addedCost outH b ce s ≤ addedCost outH b ce j) ∧
  (∀ j, j < s → addedCost outH b ce s < addedCost outH b ce j)

/-- Under realistic cost bounds the threshold evaluation of one cluster is a
strict-improvement test: it succeeds with the added cost exactly when that
added cost beats the current best. -/
theorem addThresh_step (a b : HModel) (ce : Fin 5 → Bool → ℕ) (best : ℤ)
    (hbc : a.bit_cost ≤ 2 ^ 60) (hce : combinedTotal a b ce ≤ 2 ^ 61)
    (hbest : best = INT64_MAX ∨ (-(2 ^ 62) ≤ best ∧ best ≤ 2 ^ 62)) :
    HistogramAddThresh a b ce best =
      if (combinedTotal a b ce : ℤ) - (a.bit_cost : ℤ) < best then
        some ((combinedTotal a b ce : ℤ) - (a.bit_cost : ℤ))
      else none := by
  unfold HistogramAddThresh
  rcases hbest with hbest | hbest
  · subst hbest
    have hsat : SaturateAdd a.bit_cost INT64_MAX = INT64_MAX := by
      unfold SaturateAdd int64OfUInt64 INT64_MAX
      split_ifs <;> omega
    rw [hsat, gche_eq]
    have hcond : 0 < INT64_MAX ∧ combinedTotal a b ce < INT64_MAX.toNat := by
      unfold INT64_MAX
      constructor <;> omega
    rw [if_pos hcond,
      if_pos (show (combinedTotal a b ce : ℤ) - (a.bit_cost : ℤ) < INT64_MAX by
        unfold INT64_MAX; omega)]
  · have hsat := saturateAdd_eq a.bit_cost best (by omega) (by omega)
    rw [hsat, gche_eq]
    by_cases hlt : (combinedTotal a b ce : ℤ) - (a.bit_cost : ℤ) < best
    · rw [if_pos (by constructor <;> omega), if_pos hlt]
    · rw [if_neg (fun hcon => hlt (by omega)), if_neg hlt]

/-- The invariant of `HistogramRemap`'s scan after processing the first `n`
clusters: the accumulator holds the least-index minimiser of the added cost
over the clusters seen so far. -/
def BestInv (outH : List HModel) (b : HModel) (ce : ℕ → Fin 5 → Bool → ℕ)
    (n : ℕ) (acc : ℕ × ℤ) : Prop :=
  acc.1 < n ∧ -(2 ^ 62) ≤ acc.2 ∧ acc.2 ≤ 2 ^ 62 ∧
  acc.2 = addedCost outH b ce acc.1 ∧
  (∀ j, j < n → acc.2 ≤ addedCost outH b ce j) ∧
  (∀ j, j < acc.1 → acc.2 < addedCost outH b ce j)

theorem remapFold_inv (outH : List HModel) (b : HModel)
    (ce : ℕ → Fin 5 → Bool → ℕ)
    (HB : ∀ k, k < outH.length → (outH.getD k ⟨0, 0⟩).bit_cost ≤ 2 ^ 60 ∧
      combinedTotal (outH.getD k ⟨0, 0⟩) b (ce k) ≤ 2 ^ 61) :
    ∀ n, n ≤ outH.length → 0 < n →
      BestInv outH b ce n
        ((List.range n).foldl (remapStep outH b ce) (0, INT64_MAX)) := by
  intro n
  induction n with
  | zero => intro _ h0; omega
  | succ n ih =>
    intro hle _
    rw [List.range_succ, List.foldl_append, List.foldl_cons, List.foldl_nil]
    by_cases hn : 0 < n
    · obtain ⟨h1, h2a, h2b, h3, h4, h5⟩ := ih (by omega) hn
      set acc := (List.range n).foldl (remapStep outH b ce) (0, INT64_MAX)
        with hacc
      unfold remapStep
      have hstep := addThresh_step (outH.getD n ⟨0, 0⟩) b (ce n) acc.2
        (HB n (by omega)).1 (HB n (by omega)).2 (Or.inr ⟨h2a, h2b⟩)
      have hadd : (combinedTotal (outH.getD n ⟨0, 0⟩) b (ce n) : ℤ) -
          ((outH.getD n ⟨0, 0⟩).bit_cost : ℤ) = addedCost outH b ce n := rfl
      rw [hadd] at hstep
      rw [hstep]
      have hbound : -(2 ^ 62 : ℤ) ≤ addedCost outH b ce n ∧
          addedCost outH b ce n ≤ 2 ^ 62 := by
        have hc := (HB n (by omega)).1
        have ht := (HB n (by omega)).2
        unfold addedCost
        omega
      by_cases hlt : addedCost outH b ce n < acc.2
      · rw [if_pos hlt]
        dsimp only
        refine ⟨by omega, hbound.1, hbound.2, rfl, ?_, ?_⟩
        · intro j hj
          rcases (by omega : j < n ∨ j = n) with hj' | hj'
          · have := h4 j hj'
            omega
          · subst hj'
            exact le_refl _
        · intro j hj
          have := h4 j (by omega)
          omega
      · rw [if_neg hlt]
        dsimp only
        refine ⟨by omega, h2a, h2b, h3, ?_, h5⟩
        intro j hj
        rcases (by omega : j < n ∨ j = n) with hj' | hj'
        · exact h4 j hj'
        · subst hj'
          omega
    · have hn0 : n = 0 := by omega
      subst hn0
      simp only [List.range_zero, List.foldl_nil]
      unfold remapStep
      have hstep := addThresh_step (outH.getD 0 ⟨0, 0⟩) b (ce 0) INT64_MAX
        (HB 0 (by omega)).1 (HB 0 (by omega)).2 (Or.inl rfl)
      have hadd : (combinedTotal (outH.getD 0 ⟨0, 0⟩) b (ce 0) : ℤ) -
          ((outH.getD 0 ⟨0, 0⟩).bit_cost : ℤ) = addedCost outH b ce 0 := rfl
      rw [hadd] at hstep
      rw [hstep]
      have hbound : -(2 ^ 62 : ℤ) ≤ addedCost outH b ce 0 ∧
          addedCost outH b ce 0 ≤ 2 ^ 62 := by
        have hc := (HB 0 (by omega)).1
        have ht := (HB 0 (by omega)).2
        unfold addedCost
        omega
      rw [if_pos (show addedCost outH b ce 0 < INT64_MAX by
        unfold INT64_MAX; omega)]
      dsimp only
      refine ⟨by omega, hbound.1, hbound.2, rfl, ?_, by omega⟩
      intro j hj
      have hj0 : j = 0 := by omega
      subst hj0
      exact le_refl _

theorem remapBest_spec (outH : List HModel) (b : HModel)
    (ce : ℕ → Fin 5 → Bool → ℕ) (hout : 0 < outH.length)
    (HB : ∀ k, k < outH.length → (outH.getD k ⟨0, 0⟩).bit_cost ≤ 2 ^ 60 ∧
      combinedTotal (outH.getD k ⟨0, 0⟩) b (ce k) ≤ 2 ^ 61) :
    IsBestAssignment outH b ce (remapBest outH b ce).1 := by
  obtain ⟨h1, _, _, h3, h4, h5⟩ :=
    remapFold_inv outH b ce HB outH.length (le_refl _) hout
  exact ⟨h1, fun j hj => h3 ▸ h4 j hj, fun j hj => h3 ▸ h5 j hj⟩

theorem combinedTotal_le (a b : HModel) (ce : Fin 5 → Bool → ℕ)
    (h : ∀ k f, ce k f ≤ 2 ^ 58) : combinedTotal a b ce ≤ 2 ^ 61 := by
  unfold combinedTotal
  dsimp only
  have h0 := h 0 false
  have h1 := h 1 (trivialAtEnd a b)
  have h2 := h 2 (trivialAtEnd a b)
  have h3 := h 3 (trivialAtEnd a b)
  have h4 := h 4 false
  omega

theorem remapGo_length (outH : List HModel) (ce : ℕ → ℕ → Fin 5 → Bool → ℕ) :
    ∀ (l : List (Option HModel)) (i prev : ℕ),
      (remapSymbolsGo outH ce l i prev).length = l.length := by
  intro l
  induction l with
  | nil => intro i prev; rfl
  | cons hd tl ih =>
    intro i prev
    cases hd <;> simp [remapSymbolsGo, ih]

theorem remapGo_valid (outH : List HModel) (ce : ℕ → ℕ → Fin 5 → Bool → ℕ)
    (hout : 0 < outH.length)
    (hcost : ∀ k, k < outH.length → (outH.getD k ⟨0, 0⟩).bit_cost ≤ 2 ^ 60)
    (hce : ∀ i k c f, ce i k c f ≤ 2 ^ 58) :
    ∀ (l : List (Option HModel)) (i prev : ℕ), prev < outH.length →
      ∀ j, j < l.length →
        (remapSymbolsGo outH ce l i prev).getD j 0 < outH.length := by
  intro l
  induction l with
  | nil => intro i prev _ j hj; simp at hj
  | cons hd tl ih =>
    intro i prev hprev j hj
    cases hd with
    | none =>
      match j with
      | 0 => simpa [remapSymbolsGo] using hprev
      | j + 1 =>
        have hj' : j < tl.length := by simpa using hj
        simpa [remapSymbolsGo] using ih (i + 1) prev hprev j hj'
    | some b =>
      have hbest := remapBest_spec outH b (ce i) hout
        (fun k hk => ⟨hcost k hk, combinedTotal_le _ _ _ (fun c f => hce i k c f)⟩)
      match j with
      | 0 => simpa [remapSymbolsGo] using hbest.1
      | j + 1 =>
        have hj' : j < tl.length := by simpa using hj
        simpa [remapSymbolsGo] using
          ih (i + 1) (remapBest outH b (ce i)).1 hbest.1 j hj'

theorem remapGo_present (outH : List HModel) (ce : ℕ → ℕ → Fin 5 → Bool → ℕ) :
    ∀ (l : List (Option HModel)) (i prev : ℕ) (j : ℕ) (b : HModel),
      j < l.length → l.getD j none = some b →
      (remapSymbolsGo outH ce l i prev).getD j 0 =
        (remapBest outH b (ce (i + j))).1 := by
  intro l
  induction l with
  | nil => intro i prev j b hj; simp at hj
  | cons hd tl ih =>
    intro i prev j b hj hget
    match j with
    | 0 =>
      have : hd = some b := by simpa using hget
      subst this
      simp [remapSymbolsGo]
    | j + 1 =>
      have hj' : j < tl.length := by simpa using hj
      have hget' : tl.getD j none = some b := by simpa using hget
      cases hd with
      | none =>
        have := ih (i + 1) prev j b hj' hget'
        simpa [remapSymbolsGo, Nat.add_assoc, Nat.add_comm 1 j] using this
      | some b' =>
        have := ih (i + 1) (remapBest outH b' (ce i)).1 j b hj' hget'
        simpa [remapSymbolsGo, Nat.add_assoc, Nat.add_comm 1 j] using this

theorem remapGo_absent (outH : List HModel) (ce : ℕ → ℕ → Fin 5 → Bool → ℕ) :
    ∀ (l : List (Option HModel)) (i prev : ℕ) (j : ℕ),
      0 < j → j < l.length → l.getD j none = none →
      (remapSymbolsGo outH ce l i prev).getD j 0 =
        (remapSymbolsGo outH ce l i prev).getD (j - 1) 0 := by
  intro l
  induction l with
  | nil => intro i prev j _ hj; simp at hj
  | cons hd tl ih =>
    intro i prev j hj0 hj hget
    match j with
    | 1 =>
      have h1 : 0 < tl.length := by simpa using hj
      have hget' : tl.getD 0 none = none := by simpa using hget
      cases tl with
      | nil => simp at h1
      | cons hd2 tl2 =>
        have : hd2 = none := by simpa using hget'
        subst this
        cases hd <;> simp [remapSymbolsGo]
    | j + 2 =>
      have hj' : j + 1 < tl.length := by
        simp only [List.length_cons] at hj
        omega
      have hget' : tl.getD (j + 1) none = none := by simpa using hget
      cases hd with
      | none =>
        have := ih (i + 1) prev (j + 1) (by omega) hj' hget'
        simpa [remapSymbolsGo] using this
      | some b' =>
        have := ih (i + 1) (remapBest outH b' (ce i)).1 (j + 1) (by omega)
          hj' hget'
        simpa [remapSymbolsGo] using this

theorem getD_replicate_zero (n i : ℕ) :
    (List.replicate n (0 : ℕ)).getD i 0 = 0 := by
  induction n generalizing i with
  | zero => simp
  | succ n ih =>
    match i with
    | 0 => simp [List.replicate]
    | i + 1 => simp [List.replicate]

/-- C3: the symbols produced by `HistogramRemap`.  Under realistic cost
bounds (which rule out 64-bit saturation), every tile's symbol is a valid
final-cluster index; each present tile is assigned the final cluster with the
least threshold-bail added cost, ties broken toward the lowest index; and each
absent tile adopts the previous tile's assignment.  The first tile is required
present, matching the assertion in `HistogramCopyAndAnalyze` (an absent first
tile would make the C code read the uninitialized `symbols[-1]`). -/
theorem C3_remap_symbols (inH : List (Option HModel)) (outH : List HModel)
    (ce : ℕ → ℕ → Fin 5 → Bool → ℕ) (hout : 0 < outH.length)
    (_hfirst : inH = [] ∨ inH.getD 0 none ≠ none)
    (hcost : ∀ k, k < outH.length → (outH.getD k ⟨0, 0⟩).bit_cost ≤ 2 ^ 60)
    (hce : ∀ i k c f, ce i k c f ≤ 2 ^ 58) :
    (HistogramRemapSymbols inH outH ce).length = inH.length ∧
    (∀ i, i < inH.length →
      (HistogramRemapSymbols inH outH ce).getD i 0 < outH.length) ∧
    (∀ i b, i < inH.length → inH.getD i none = some b →
      IsBestAssignment outH b (ce i)
        ((HistogramRemapSymbols inH outH ce).getD i 0)) ∧
    (∀ i, 0 < i → i < inH.length → inH.getD i none = none →
      (HistogramRemapSymbols inH outH ce).getD i 0 =
        (HistogramRemapSymbols inH outH ce).getD (i - 1) 0) := by
  unfold HistogramRemapSymbols
  by_cases hsize : 1 < outH.length
  · rw [if_pos hsize]
    refine ⟨remapGo_length outH ce inH 0 0, ?_, ?_, ?_⟩
    · intro i hi
      exact remapGo_valid outH ce hout hcost hce inH 0 0 hout i hi
    · intro i b hi hget
      have := remapGo_present outH ce inH 0 0 i b hi hget
      rw [this]
      simp only [Nat.zero_add]
      exact remapBest_spec outH b (ce i) hout
        (fun k hk => ⟨hcost k hk, combinedTotal_le _ _ _ (fun c f => hce i k c f)⟩)
    · intro i h0 hi hget
      exact remapGo_absent outH ce inH 0 0 i h0 hi hget
  · rw [if_neg hsize]
    have hone : outH.length = 1 := by omega
    refine ⟨by simp, ?_, ?_, ?_⟩
    · intro i hi
      rw [getD_replicate_zero]
      omega
    · intro i b hi hget
      rw [getD_replicate_zero]
      exact ⟨by omega, fun j hj => by
          have : j = 0 := by omega
          subst this
          exact le_refl _,
        fun j hj => by omega⟩
    · intro i h0 hi hget
      rw [getD_replicate_zero, getD_replicate_zero]

/-- C3 witness: the remap theorem at a concrete two-cluster instance with one
present and one absent tile and a constant cost oracle. -/
theorem C3_remap_symbols_witness :
    (HistogramRemapSymbols [some ⟨10, 0⟩, none] [⟨5, 0⟩, ⟨7, 3⟩]
        (fun _ _ _ _ => 1)).length = 2 ∧
    (∀ i, i < 2 →
      (HistogramRemapSymbols [some ⟨10, 0⟩, none] [⟨5, 0⟩, ⟨7, 3⟩]
          (fun _ _ _ _ => 1)).getD i 0 < 2) ∧
    (∀ i b, i < 2 →
      ([some ⟨10, 0⟩, none] : List (Option HModel)).getD i none = some b →
      IsBestAssignment [⟨5, 0⟩, ⟨7, 3⟩] b (fun _ _ => 1)
        ((HistogramRemapSymbols [some ⟨10, 0⟩, none] [⟨5, 0⟩, ⟨7, 3⟩]
            (fun _ _ _ _ => 1)).getD i 0)) ∧
    (∀ i, 0 < i → i < 2 →
      ([some ⟨10, 0⟩, none] : List (Option HModel)).getD i none = none →
      (HistogramRemapSymbols [some ⟨10, 0⟩, none] [⟨5, 0⟩, ⟨7, 3⟩]
          (fun _ _ _ _ => 1)).getD i 0 =
        (HistogramRemapSymbols [some ⟨10, 0⟩, none] [⟨5, 0⟩, ⟨7, 3⟩]
            (fun _ _ _ _ => 1)).getD (i - 1) 0) := by
  have h := C3_remap_symbols [some ⟨10, 0⟩, none] [⟨5, 0⟩, ⟨7, 3⟩]
    (fun _ _ _ _ => 1) (by decide) (Or.inr (by decide)) (by decide)
    (fun _ _ _ _ => by norm_num)
  simpa using h

/-! ### Histogram pair priority queue (histogram_enc.c, `HistoQueuePush`,
`HistoQueuePopPair`, `HistoQueueUpdateHead`, and the post-merge queue update
loop of `HistogramCombineStochastic`) -/

/-- `HistogramPair` (histogram_enc.c). -/
structure HistogramPair where
  idx1 : ℤ
  idx2 : ℤ
  cost_diff : ℤ
  cost_combo : ℕ
deriving DecidableEq

/-- Default pair used for out-of-range `getD` reads (never reached by the
in-range accesses the code performs). -/
def dpair : HistogramPair := ⟨0, 0, 0, 0⟩

/-- `HistoQueueUpdatePair` (histogram_enc.c): recompute `cost_combo` and
`cost_diff` of a pair against a threshold; the index fields are untouched. -/
def HistoQueueUpdatePair (h1 h2 : HModel) (ce : Fin 5 → Bool → ℕ)
    (cost_threshold : ℤ) (pair : HistogramPair) : Option HistogramPair :=
  match GetCombinedHistogramEntropy h1 h2 ce
      (SaturateAdd (h1.bit_cost + h2.bit_cost) cost_threshold) with
  | none => none
  | some combo =>
    some { pair with cost_combo := combo,
                     cost_diff := (combo : ℤ) -
                       ((h1.bit_cost : ℤ) + (h2.bit_cost : ℤ)) }

/-- `HistoQueuePopPair` (histogram_enc.c): overwrite the pair at position `j`
with the last element and shrink the queue. -/
def HistoQueuePopPair (q : List HistogramPair) (j : ℕ) : List HistogramPair :=
  (q.set j (q.getD (q.length - 1) dpair)).dropLast

/-- `HistoQueueUpdateHead` (histogram_enc.c): swap the pair at position `j`
into the head slot when it has a strictly lower `cost_diff`. -/
def HistoQueueUpdateHead (q : List HistogramPair) (j : ℕ) :
    List HistogramPair :=
  if (q.getD j dpair).cost_diff < (q.getD 0 dpair).cost_diff then
    (q.set 0 (q.getD j dpair)).set j (q.getD 0 dpair)
  else q

/-- `HistoQueuePush` (histogram_enc.c): unless the queue is full, swap the two
indices into increasing order, evaluate the pair against the threshold,
append it and update the head.  `histos` maps an index to its histogram and
`ce` abstracts the per-class combined entropies of two indices.  Returns the
queue and the pushed pair's `cost_diff` (0 when nothing was pushed). -/
def HistoQueuePush (histos : ℤ → HModel) (ce : ℤ → ℤ → Fin 5 → Bool → ℕ)
    (q : List HistogramPair) (max_size : ℕ) (idx1 idx2 threshold : ℤ) :
    List HistogramPair × ℤ :=
  if q.length = max_size then (q, 0)
  else
    let i1 := if idx1 > idx2 then idx2 else idx1
    let i2 := if idx1 > idx2 then idx1 else idx2
    match HistoQueueUpdatePair (histos i1) (histos i2) (ce i1 i2) threshold
        ⟨i1, i2, 0, 0⟩ with
    | none => (q, 0)
    | some pair =>
      (HistoQueueUpdateHead (q ++ [pair]) ((q ++ [pair]).length - 1),
        pair.cost_diff)

/-- The index reassignment of the stochastic post-merge update: any pair
referring to one of the merged indices is redirected to `best_idx1`. -/
def stochasticReassign (p : HistogramPair) (b1 b2 : ℤ) : HistogramPair :=
  if p.idx1 = b1 ∨ p.idx1 = b2 then { p with idx1 := b1 }
  else if p.idx2 = b1 ∨ p.idx2 = b2 then { p with idx2 := b1 }
  else p

/-- The index-order restoring swap (`if (p->idx1 > p->idx2) swap`). -/
def pairReorder (p : HistogramPair) : HistogramPair :=
  if p.idx1 > p.idx2 then { p with idx1 := p.idx2, idx2 := p.idx1 } else p

theorem length_histoQueuePopPair (q : List HistogramPair) (j : ℕ) :
    (HistoQueuePopPair q j).length = q.length - 1 := by
  simp [HistoQueuePopPair]

theorem length_histoQueueUpdateHead (q : List HistogramPair) (j : ℕ) :
    (HistoQueueUpdateHead q j).length = q.length := by
  unfold HistoQueueUpdateHead
  split_ifs <;> simp

/-- The post-merge queue update loop of `HistogramCombineStochastic`
(histogram_enc.c, the `for (j = 0; j < histo_queue.size;)` loop): pairs
touching both merged indices are popped; pairs touching one are redirected to
`best_idx1`, re-ordered, re-evaluated (popped on bail), and the head is
updated before advancing. -/
def stochasticQueueUpdate (histos : ℤ → HModel)
    (ce : ℤ → ℤ → Fin 5 → Bool → ℕ) (b1 b2 : ℤ)
    (q : List HistogramPair) (j : ℕ) : List HistogramPair :=
  if hj : j < q.length then
    let p := q.getD j dpair
    if (p.idx1 = b1 ∨ p.idx1 = b2) ∧ (p.idx2 = b1 ∨ p.idx2 = b2) then
      stochasticQueueUpdate histos ce b1 b2 (HistoQueuePopPair q j) j
    else
      let p2 := pairReorder (stochasticReassign p b1 b2)
      if (p.idx1 = b1 ∨ p.idx1 = b2) ∨ (p.idx2 = b1 ∨ p.idx2 = b2) then
        match HistoQueueUpdatePair (histos p2.idx1) (histos p2.idx2)
            (ce p2.idx1 p2.idx2) 0 p2 with
        | none =>
          stochasticQueueUpdate histos ce b1 b2
            (HistoQueuePopPair (q.set j p2) j) j
        | some p3 =>
          stochasticQueueUpdate histos ce b1 b2
            (HistoQueueUpdateHead (q.set j p3) j) (j + 1)
      else
        stochasticQueueUpdate histos ce b1 b2
          (HistoQueueUpdateHead (q.set j p2) j) (j + 1)
  else q
termination_by q.length - j
decreasing_by
  all_goals
    simp only [length_histoQueuePopPair, length_histoQueueUpdateHead,
      List.length_set]
  all_goals omega

/-- Every pair in the queue has its first index strictly below its second. -/
def OrderedQ (q : List HistogramPair) : Prop := ∀ p ∈ q, p.idx1 < p.idx2

theorem getD_mem {α : Type} (l : List α) (i : ℕ) (d : α) (h : i < l.length) :
    l.getD i d ∈ l := by
  induction l generalizing i with
  | nil => simp at h
  | cons a l ih =>
    match i with
    | 0 => simp
    | i + 1 =>
      have hi : i < l.length := by simpa using h
      exact List.mem_cons_of_mem a (ih i hi)

theorem orderedQ_updateHead (q : List HistogramPair) (j : ℕ)
    (hj : j < q.length) (h : OrderedQ q) :
    OrderedQ (HistoQueueUpdateHead q j) := by
  unfold HistoQueueUpdateHead
  split_ifs with hc
  · intro p hp
    rcases List.mem_or_eq_of_mem_set hp with hp' | hp'
    · rcases List.mem_or_eq_of_mem_set hp' with hp'' | hp''
      · exact h p hp''
      · exact hp'' ▸ h _ (getD_mem _ _ _ hj)
    · exact hp' ▸ h _ (getD_mem _ _ _ (by omega))
  · exact h

theorem orderedQ_popPair (q : List HistogramPair) (j : ℕ) (h : OrderedQ q) :
    OrderedQ (HistoQueuePopPair q j) := by
  cases q with
  | nil => intro p hp; simp [HistoQueuePopPair] at hp
  | cons a q' =>
    intro p hp
    unfold HistoQueuePopPair at hp
    have hp1 := List.dropLast_subset _ hp
    rcases List.mem_or_eq_of_mem_set hp1 with hp2 | hp2
    · exact h p hp2
    · refine hp2 ▸ h _ (getD_mem _ _ _ ?_)
      simp only [List.length_cons]
      omega

theorem updatePair_idx (h1 h2 : HModel) (ce : Fin 5 → Bool → ℕ) (t : ℤ)
    (p p' : HistogramPair) (h : HistoQueueUpdatePair h1 h2 ce t p = some p') :
    p'.idx1 = p.idx1 ∧ p'.idx2 = p.idx2 := by
  unfold HistoQueueUpdatePair at h
  cases hg : GetCombinedHistogramEntropy h1 h2 ce
      (SaturateAdd (h1.bit_cost + h2.bit_cost) t) with
  | none => rw [hg] at h; exact absurd h (by simp)
  | some combo =>
    rw [hg] at h
    simp only [Option.some.injEq] at h
    rw [← h]
    exact ⟨rfl, rfl⟩

theorem orderedQ_push (histos : ℤ → HModel) (ce : ℤ → ℤ → Fin 5 → Bool → ℕ)
    (q : List HistogramPair) (max_size : ℕ) (idx1 idx2 threshold : ℤ)
    (h : OrderedQ q) (hne : idx1 ≠ idx2) :
    OrderedQ (HistoQueuePush histos ce q max_size idx1 idx2 threshold).1 := by
  unfold HistoQueuePush
  by_cases hfull : q.length = max_size
  · rw [if_pos hfull]
    exact h
  · rw [if_neg hfull]
    dsimp only
    generalize hI1 : (if idx1 > idx2 then idx2 else idx1) = i1
    generalize hI2 : (if idx1 > idx2 then idx1 else idx2) = i2
    have h12 : i1 < i2 := by
      rw [← hI1, ← hI2]
      split_ifs with hgt <;> omega
    cases hup : HistoQueueUpdatePair (histos i1) (histos i2) (ce i1 i2)
        threshold ⟨i1, i2, 0, 0⟩ with
    | none => exact h
    | some pair =>
      obtain ⟨hx1, hx2⟩ := updatePair_idx _ _ _ _ _ _ hup
      dsimp only
      apply orderedQ_updateHead _ _ (by
        simp only [List.length_append, List.length_cons, List.length_nil]
        omega)
      intro p hp
      rcases List.mem_append.mp hp with hp' | hp'
      · exact h p hp'
      · have hpe : p = pair := by simpa using hp'
        rw [hpe, hx1, hx2]
        exact h12

theorem reassign_reorder_ordered (p : HistogramPair) (b1 b2 : ℤ)
    (hord : p.idx1 < p.idx2)
    (hnb : ¬((p.idx1 = b1 ∨ p.idx1 = b2) ∧ (p.idx2 = b1 ∨ p.idx2 = b2))) :
    (pairReorder (stochasticReassign p b1 b2)).idx1 <
      (pairReorder (stochasticReassign p b1 b2)).idx2 := by
  unfold pairReorder stochasticReassign
  split_ifs <;> simp_all <;> omega

theorem orderedQ_stochasticUpdate (histos : ℤ → HModel)
    (ce : ℤ → ℤ → Fin 5 → Bool → ℕ) (b1 b2 : ℤ) :
    ∀ (fuel : ℕ) (q : List HistogramPair) (j : ℕ), q.length - j ≤ fuel →
      OrderedQ q → OrderedQ (stochasticQueueUpdate histos ce b1 b2 q j) := by
  intro fuel
  induction fuel with
  | zero =>
    intro q j hf h
    rw [stochasticQueueUpdate]
    rw [dif_neg (by omega)]
    exact h
  | succ fuel ih =>
    intro q j hf h
    rw [stochasticQueueUpdate]
    by_cases hj : j < q.length
    · rw [dif_pos hj]
      dsimp only
      have hp_ord : (q.getD j dpair).idx1 < (q.getD j dpair).idx2 :=
        h _ (getD_mem _ _ _ hj)
      by_cases hboth : ((q.getD j dpair).idx1 = b1 ∨ (q.getD j dpair).idx1 = b2) ∧
          ((q.getD j dpair).idx2 = b1 ∨ (q.getD j dpair).idx2 = b2)
      · rw [if_pos hboth]
        refine ih (HistoQueuePopPair q j) j ?_ (orderedQ_popPair q j h)
        rw [length_histoQueuePopPair]
        omega
      · rw [if_neg hboth]
        have hp2 := reassign_reorder_ordered _ b1 b2 hp_ord hboth
        have hset : OrderedQ (q.set j
            (pairReorder (stochasticReassign (q.getD j dpair) b1 b2))) := by
          intro p hp
          rcases List.mem_or_eq_of_mem_set hp with hp' | hp'
          · exact h p hp'
          · exact hp' ▸ hp2
        by_cases hone : ((q.getD j dpair).idx1 = b1 ∨ (q.getD j dpair).idx1 = b2) ∨
            ((q.getD j dpair).idx2 = b1 ∨ (q.getD j dpair).idx2 = b2)
        · rw [if_pos hone]
          cases hup : HistoQueueUpdatePair
              (histos (pairReorder (stochasticReassign (q.getD j dpair) b1 b2)).idx1)
              (histos (pairReorder (stochasticReassign (q.getD j dpair) b1 b2)).idx2)
              (ce (pairReorder (stochasticReassign (q.getD j dpair) b1 b2)).idx1
                (pairReorder (stochasticReassign (q.getD j dpair) b1 b2)).idx2)
              0 (pairReorder (stochasticReassign (q.getD j dpair) b1 b2)) with
          | none =>
            refine ih _ j ?_ (orderedQ_popPair _ j hset)
            rw [length_histoQueuePopPair, List.length_set]
            omega
          | some p3 =>
            obtain ⟨hx1, hx2⟩ := updatePair_idx _ _ _ _ _ _ hup
            have hset3 : OrderedQ (q.set j p3) := by
              intro p hp
              rcases List.mem_or_eq_of_mem_set hp with hp' | hp'
              · exact h p hp'
              · rw [hp', hx1, hx2]
                exact hp2
            refine ih _ (j + 1) ?_
              (orderedQ_updateHead _ j (by simp [List.length_set]; omega) hset3)
            rw [length_histoQueueUpdateHead, List.length_set]
            omega
        · rw [if_neg hone]
          refine ih _ (j + 1) ?_
            (orderedQ_updateHead _ j (by simp [List.length_set]; omega) hset)
          rw [length_histoQueueUpdateHead, List.length_set]
          omega
    · rw [dif_neg hj]
      exact h

/-- C10: every pair in the histogram priority queue keeps `idx1 < idx2`:
`HistoQueuePush` swaps the two indices into increasing order when given
`idx1 > idx2` (for any distinct indices, as its callers always supply), and
the stochastic post-merge queue update re-orders every reassigned pair, so
both operations preserve the strict ordering of every pair in the queue. -/
theorem C10_queue_index_order :
    (∀ (histos : ℤ → HModel) (ce : ℤ → ℤ → Fin 5 → Bool → ℕ)
        (q : List HistogramPair) (max_size : ℕ) (idx1 idx2 threshold : ℤ),
      OrderedQ q → idx1 ≠ idx2 →
      OrderedQ (HistoQueuePush histos ce q max_size idx1 idx2 threshold).1) ∧
    (∀ (histos : ℤ → HModel) (ce : ℤ → ℤ → Fin 5 → Bool → ℕ) (b1 b2 : ℤ)
        (q : List HistogramPair) (j : ℕ),
      OrderedQ q → OrderedQ (stochasticQueueUpdate histos ce b1 b2 q j)) :=
  ⟨fun histos ce q max_size idx1 idx2 threshold h hne =>
      orderedQ_push histos ce q max_size idx1 idx2 threshold h hne,
    fun histos ce b1 b2 q j h =>
      orderedQ_stochasticUpdate histos ce b1 b2 (q.length - j) q j
        (le_refl _) h⟩

/-- C10 witness: the invariant at a concrete queue, pushing the indices in
decreasing order and running the post-merge update. -/
theorem C10_queue_index_order_witness :
    OrderedQ (HistoQueuePush (fun _ => ⟨0, 0⟩) (fun _ _ _ _ => 0)
        [⟨0, 1, -1, 0⟩] 9 5 3 (-1)).1 ∧
    OrderedQ (stochasticQueueUpdate (fun _ => ⟨0, 0⟩) (fun _ _ _ _ => 0) 0 1
        [⟨0, 1, -1, 0⟩] 0) :=
  ⟨C10_queue_index_order.1 (fun _ => ⟨0, 0⟩) (fun _ _ _ _ => 0)
      [⟨0, 1, -1, 0⟩] 9 5 3 (-1)
      (by intro p hp; rw [List.mem_singleton] at hp; rw [hp]; decide)
      (by decide),
    C10_queue_index_order.2 (fun _ => ⟨0, 0⟩) (fun _ _ _ _ => 0) 0 1
      [⟨0, 1, -1, 0⟩] 0
      (by intro p hp; rw [List.mem_singleton] at hp; rw [hp]; decide)⟩

end WebP
